import Mathlib

/-!
# cve_crawler: the batch scheduler, the worker, the CWE parser and the report writer

A shallow embedding of `main.go`.

* Go `int` is modelled as `Int` reduced to the 64-bit two's-complement range
  after every `+` and `-` (`wrapInt`), as Go defines signed overflow.
* The scheduling loop of `main` is `schedule`; one pass of its inner `for`
  loop is `innerLoop`.  The outer loop need not terminate, so it takes fuel
  and answers `none` when the fuel is used up before `total > 0` fails.
* A worker invocation `go worker_range_cwe_get(start, n)` is recorded as the
  pair `(start, n)`; a wave is the list of invocations between two
  `wg.Wait()` calls.
* The goroutines started by `main` are run one after the other, in dispatch
  order (`runWorkers`, `enrichAll`); `enrichSeq` makes their record updates in
  any given order.
* Slice indexing that Go would answer with a run-time panic yields `none`.
* `log.Fatal` paths (transport errors) end the process and are outside the
  model: a page retrieval is a function from the CVE name to the cells of the
  weakness table found in the page.
-/

namespace CveCrawler

/-! ## Data model -/

/-- The record type `CVEInfo` of `main.go`. -/
structure CVEInfo where
  Id : String
  Href : String
  Description : String
  CWEId : List String
  CWEDesc : List String
deriving DecidableEq, Repr

/-- Constant `cwe_noinfo`. -/
def cwe_noinfo : String := "NVD-CWE-noinfo"

/-- Constant `cwe_other`. -/
def cwe_other : String := "NVD-CWE-Other"

/-! ## Machine integers -/

/-- Reduction of an integer to the range of a 64-bit Go `int`. -/
def wrapInt (x : Int) : Int :=
  (x + 9223372036854775808) % 18446744073709551616 - 9223372036854775808

/-- The values a Go `int` can hold. -/
def InRange (x : Int) : Prop :=
  -9223372036854775808 ≤ x ∧ x < 9223372036854775808

instance (x : Int) : Decidable (InRange x) := by
  unfold InRange; infer_instance

/-! ## The scheduling loop of `main` -/

/-- A worker invocation `worker_range_cwe_get(start, n)`, as `(start, n)`. -/
abbrev Dispatch := Int × Int

/-- The loop variables `total` and `start` of `main`. -/
structure LoopState where
  total : Int
  start : Int
deriving DecidableEq, Repr

/-- The inner loop `for i := 0; i < worker_num; i++` of `main`, with the
number of iterations still allowed (`worker_num - i`) as first argument.
Returns the workers dispatched, in order, and the loop variables at exit. -/
def innerLoop (cwe_range : Int) : Nat → LoopState → List Dispatch × LoopState
  | 0, s => ([], s)
  | k + 1, s =>
    if s.total ≤ 0 then ([], s)
    else
      let n := if s.total < cwe_range then s.total else cwe_range
      let r := innerLoop cwe_range k ⟨wrapInt (s.total - n), wrapInt (s.start + n)⟩
      ((s.start, n) :: r.1, r.2)

/-- One wave: the body of `for total > 0`, up to and including `wg.Wait()`. -/
def wave (worker_num cwe_range : Int) (s : LoopState) : List Dispatch × LoopState :=
  innerLoop cwe_range worker_num.toNat s

/-- The outer loop `for total > 0` of `main`: the waves in order and the loop
variables at exit, or `none` when the fuel does not suffice. -/
def schedule (worker_num cwe_range : Int) : Nat → LoopState → Option (List (List Dispatch) × LoopState)
  | 0, s => if 0 < s.total then none else some ([], s)
  | fuel + 1, s =>
    if 0 < s.total then
      match schedule worker_num cwe_range fuel (wave worker_num cwe_range s).2 with
      | none => none
      | some r => some ((wave worker_num cwe_range s).1 :: r.1, r.2)
    else some ([], s)

/-- The loop variables after `k` waves, without looking at the loop condition. -/
def afterWaves (worker_num cwe_range : Int) : Nat → LoopState → LoopState
  | 0, s => s
  | k + 1, s => afterWaves worker_num cwe_range k (wave worker_num cwe_range s).2

/-- Ceiling of `a / b` on integers, for `b > 0`. -/
def ceilDiv (a b : Int) : Int := (a + b - 1) / b

/-- The ranges `[start, start + n)` of `ds` follow one another from `a` to `e`,
each of them non-empty. -/
def Tiles : Int → List Dispatch → Int → Prop
  | a, [], e => a = e
  | a, d :: ds, e => d.1 = a ∧ 0 < d.2 ∧ Tiles (d.1 + d.2) ds e

/-- Index `i` lies in the range of dispatch `d`. -/
def covers (d : Dispatch) (i : Int) : Bool := decide (d.1 ≤ i) && decide (i < d.1 + d.2)

/-! ## The CWE parser `cve_cwe_get` -/

/-- The table found by `cve_cwe_get` in a page: its `tbody tr` rows, each the
texts of its `td` cells. -/
abbrev Table := List (List String)

/-- The callback of `cells.Each` in `cve_cwe_get`, for the cell of index `j`.
`trim` stands for `strings.TrimSpace`. -/
def cellStep (trim : String → String) (info : CVEInfo) (j : Nat) (cell : String) : CVEInfo :=
  let info1 := if j = 0 then { info with CWEId := info.CWEId ++ [trim cell] } else info
  if j = 1 then { info1 with CWEDesc := info1.CWEDesc ++ [cell] } else info1

/-- The iteration `cells.Each` over the cells of one row, from index `j` on. -/
def cellsEach (trim : String → String) : Nat → List String → CVEInfo → CVEInfo
  | _, [], info => info
  | j, cell :: cells, info => cellsEach trim (j + 1) cells (cellStep trim info j cell)

/-- The iteration `rows.Each` of `cve_cwe_get` over the rows of the table. -/
def rowsEach (trim : String → String) : Table → CVEInfo → CVEInfo
  | [], info => info
  | row :: rows, info => rowsEach trim rows (cellsEach trim 0 row info)

/-- Function `cve_cwe_get(cve_info, cve_name)`: `page cve_name` is the weakness
table of the page retrieved for `cve_name`; the result is the record that
`cve_info` points to afterwards. -/
def cve_cwe_get (trim : String → String) (page : String → Table) (cve_info : CVEInfo)
    (cve_name : String) : CVEInfo :=
  rowsEach trim (page cve_name) cve_info

/-! ## The worker `worker_range_cwe_get` -/

/-- The statement `cve_cwe_get(&cve_infos[i], cve_infos[i].Id)`; `none` is the
index-out-of-range panic. -/
def enrichAt (trim : String → String) (page : String → Table) (i : Int)
    (cve_infos : List CVEInfo) : Option (List CVEInfo) :=
  if 0 ≤ i then
    match cve_infos[i.toNat]? with
    | none => none
    | some info => some (cve_infos.set i.toNat (cve_cwe_get trim page info info.Id))
  else none

/-- The loop `for i := start; i < start+cwe_range; i++` of the worker, with the
number of iterations left as first argument and `i` as second. -/
def workerLoop (trim : String → String) (page : String → Table) :
    Nat → Int → List CVEInfo → Option (List CVEInfo)
  | 0, _, cve_infos => some cve_infos
  | k + 1, i, cve_infos =>
    match enrichAt trim page i cve_infos with
    | none => none
    | some st => workerLoop trim page k (wrapInt (i + 1)) st

/-- Function `worker_range_cwe_get(start, cwe_range)` on the shared slice
`cve_infos` (the progress line it prints is left out). -/
def worker_range_cwe_get (trim : String → String) (page : String → Table)
    (start cwe_range : Int) (cve_infos : List CVEInfo) : Option (List CVEInfo) :=
  workerLoop trim page (wrapInt (start + cwe_range) - start).toNat start cve_infos

/-- The workers of a dispatch list run one after the other. -/
def runWorkers (trim : String → String) (page : String → Table) :
    List Dispatch → List CVEInfo → Option (List CVEInfo)
  | [], cve_infos => some cve_infos
  | d :: ds, cve_infos =>
    match worker_range_cwe_get trim page d.1 d.2 cve_infos with
    | none => none
    | some st => runWorkers trim page ds st

/-- The enrichment phase of `main`: the scheduling loop started with
`total = len(cve_infos)` and `start = 0`, and the workers it dispatches. -/
def enrichAll (trim : String → String) (page : String → Table) (worker_num cwe_range : Int)
    (fuel : Nat) (cve_infos : List CVEInfo) : Option (List CVEInfo) :=
  match schedule worker_num cwe_range fuel ⟨cve_infos.length, 0⟩ with
  | none => none
  | some r => runWorkers trim page r.1.flatten cve_infos

/-- The record updates `cve_cwe_get(&cve_infos[i], ...)` of a list of indexes,
one after the other. -/
def enrichSeq (trim : String → String) (page : String → Table) :
    List Int → List CVEInfo → Option (List CVEInfo)
  | [], cve_infos => some cve_infos
  | i :: is, cve_infos =>
    match enrichAt trim page i cve_infos with
    | none => none
    | some st => enrichSeq trim page is st

/-- The `k` consecutive integers from `i` on. -/
def intRange : Nat → Int → List Int
  | 0, _ => []
  | k + 1, i => i :: intRange k (i + 1)

/-- The indexes `start, ..., start + n - 1` of the range of a worker `(start, n)`. -/
def workerIndexes (d : Dispatch) : List Int :=
  intRange d.2.toNat d.1

/-- The record after `cve_cwe_get(&r, r.Id)`. -/
def enrichRecord (trim : String → String) (page : String → Table) (r : CVEInfo) : CVEInfo :=
  cve_cwe_get trim page r r.Id

/-- The codes a weakness table yields: the first cell of every row that has
one, after `strings.TrimSpace`. -/
def tableIds (trim : String → String) (table : Table) : List String :=
  table.flatMap (fun row => (row[0]?.map trim).toList)

/-- The descriptions a weakness table yields: the second cell of every row that
has one. -/
def tableDescs (table : Table) : List String :=
  table.flatMap (fun row => (row[1]?).toList)

/-- The result of the Fetcher for one identifier: the (code, description)
pairs of the two-cell rows `raw`, the code after `strings.TrimSpace`. -/
def fetch_weaknesses (trim : String → String) (raw : List (String × String)) :
    List (String × String) :=
  raw.map (fun p => (trim p.1, p.2))

/-- The weakness table whose rows are the two cells of each pair. -/
def tableOfPairs (raw : List (String × String)) : Table :=
  raw.map (fun p => [p.1, p.2])

/-- A record with the result of the Fetcher for its own identifier appended to
its two weakness lists. -/
def withWeaknesses (trim : String → String) (raw : String → List (String × String))
    (r : CVEInfo) : CVEInfo :=
  { r with
    CWEId := r.CWEId ++ (fetch_weaknesses trim (raw r.Id)).map Prod.fst
    CWEDesc := r.CWEDesc ++ (fetch_weaknesses trim (raw r.Id)).map Prod.snd }

/-! ## The report writer `excel_output` -/

/-- The inner loop `for j := 0; j < len(CWEId); j++` of `excel_output`, with
the number of iterations left as first argument, then `j`, `cwe_infos` and
`cnt`; `none` is the index-out-of-range panic of `CWEDesc[j]`. -/
def cweInfosLoop (info : CVEInfo) : Nat → Nat → String → Nat → Option String
  | 0, _, cwe_infos, _ => some cwe_infos
  | k + 1, j, cwe_infos, cnt =>
    match info.CWEId[j]?, info.CWEDesc[j]? with
    | some cweId, some cweDesc =>
      if cweId = cwe_noinfo ∨ cweId = cwe_other then
        cweInfosLoop info k (j + 1) cwe_infos cnt
      else
        let sep := if 0 < j then cwe_infos ++ "\n" else cwe_infos
        cweInfosLoop info k (j + 1) (sep ++ (cweId ++ ": " ++ cweDesc)) (cnt + 1)
    | _, _ => none

/-- The text `excel_output` writes to column D for one record. -/
def columnD (info : CVEInfo) : Option String :=
  cweInfosLoop info info.CWEId.length 0 "" 0

/-- One row of the sheet: columns A to D and the hyperlink set on column B. -/
structure SheetRow where
  A : Int
  B : String
  link : String
  C : String
  D : String
deriving DecidableEq, Repr

/-- The loop `for i := 0; i < len(cve_infos); i++` of `excel_output`, from row
index `i` on. -/
def rowsLoop : Nat → List CVEInfo → Option (List SheetRow)
  | _, [] => some []
  | i, info :: rest =>
    match columnD info with
    | none => none
    | some d =>
      match rowsLoop (i + 1) rest with
      | none => none
      | some rows => some (⟨(i : Int) + 1, info.Id, info.Href, info.Description, d⟩ :: rows)

/-- What a call of `excel_output` leaves behind: the value returned, the rows
set, whether `SaveAs` wrote the file, and the error lines printed. -/
structure ExcelResult where
  ret : Int
  rows : List SheetRow
  saved : Bool
  printed : List String
deriving DecidableEq, Repr

/-- Function `excel_output`. `newSheetErr` and `saveAsErr` are the errors that
`f.NewSheet` and `f.SaveAs` answer (`none` for `nil`); `none` as result is a
run-time panic. -/
def excel_output (newSheetErr saveAsErr : Option String) (cve_infos : List CVEInfo) :
    Option ExcelResult :=
  match newSheetErr with
  | some e => some ⟨-1, [], false, [e]⟩
  | none =>
    match rowsLoop 0 cve_infos with
    | none => none
    | some rows =>
      match saveAsErr with
      | some e => some ⟨0, rows, false, [e]⟩
      | none => some ⟨0, rows, true, []⟩

/-- The joined weakness text as the specification words it: the strings
`code: description` of the pairs whose code is none of the two sentinel codes,
in order, with one line break between consecutive entries. -/
def joinedWeaknessText (weaknesses : List (String × String)) : String :=
  "\n".intercalate
    ((weaknesses.filter (fun p => decide (p.1 ≠ cwe_noinfo ∧ p.1 ≠ cwe_other))).map
      (fun p => p.1 ++ ": " ++ p.2))

/-- The strings `code: description` of the pairs that are kept. -/
def keptEntries (weaknesses : List (String × String)) : List String :=
  (weaknesses.filter (fun p => decide (p.1 ≠ cwe_noinfo ∧ p.1 ≠ cwe_other))).map
    (fun p => p.1 ++ ": " ++ p.2)

/-- Every entry written after a line break. -/
def sepConcat : List String → String
  | [] => ""
  | e :: es => "\n" ++ e ++ sepConcat es

/-! ## Facts on machine integers -/

theorem wrapInt_eq (x : Int) (h : InRange x) : wrapInt x = x := by
  unfold InRange at h
  unfold wrapInt
  omega

/-! ## Integer ceiling division -/

theorem ceilDiv_zero (b : Int) (hb : 0 < b) : ceilDiv 0 b = 0 := by
  unfold ceilDiv
  exact Int.ediv_eq_zero_of_lt (by omega) (by omega)

theorem ceilDiv_small (t b : Int) (ht : 0 < t) (htb : t ≤ b) : ceilDiv t b = 1 := by
  unfold ceilDiv
  have h1 : t + b - 1 = (t - 1) + 1 * b := by ring
  rw [h1, Int.add_mul_ediv_right _ _ (by omega : b ≠ 0),
    Int.ediv_eq_zero_of_lt (by omega) (by omega)]
  rfl

theorem ceilDiv_sub (t b : Int) (hb : 0 < b) : ceilDiv (t - b) b + 1 = ceilDiv t b := by
  unfold ceilDiv
  have h1 : t + b - 1 = (t - b + b - 1) + 1 * b := by ring
  rw [h1, Int.add_mul_ediv_right _ _ (by omega : b ≠ 0)]

theorem ceilDiv_nonneg (t b : Int) (ht : 0 ≤ t) (hb : 0 < b) : 0 ≤ ceilDiv t b := by
  unfold ceilDiv
  exact Int.ediv_nonneg (by omega) (by omega)

theorem ceilDiv_pos (t b : Int) (ht : 0 < t) (hb : 0 < b) : 0 < ceilDiv t b := by
  unfold ceilDiv
  have : (1 : Int) ≤ (t + b - 1) / b := by
    rw [Int.le_ediv_iff_mul_le hb]
    omega
  omega

theorem ceilDiv_eq_zero (t b : Int) (ht : 0 ≤ t) (hb : 0 < b) (h : ceilDiv t b ≤ 0) : t = 0 := by
  by_contra hne
  have := ceilDiv_pos t b (by omega) hb
  omega

/-! ## The inner loop -/

theorem innerLoop_zero (b : Int) (s : LoopState) : innerLoop b 0 s = ([], s) := rfl

theorem innerLoop_done (b : Int) (k : Nat) (s : LoopState) (h : s.total ≤ 0) :
    innerLoop b k s = ([], s) := by
  cases k with
  | zero => rfl
  | succ k => simp [innerLoop, h]

theorem innerLoop_succ (b : Int) (k : Nat) (s : LoopState) (h : 0 < s.total) :
    innerLoop b (k + 1) s =
      ((s.start, if s.total < b then s.total else b) ::
        (innerLoop b k ⟨wrapInt (s.total - (if s.total < b then s.total else b)),
          wrapInt (s.start + (if s.total < b then s.total else b))⟩).1,
       (innerLoop b k ⟨wrapInt (s.total - (if s.total < b then s.total else b)),
          wrapInt (s.start + (if s.total < b then s.total else b))⟩).2) := by
  have h' : ¬ s.total ≤ 0 := by omega
  simp [innerLoop, h']

theorem innerLoop_spec (b : Int) (hb : 0 < b) :
    ∀ (k : Nat) (t s : Int), 0 ≤ t → 0 ≤ s → s + t < 9223372036854775808 →
      Tiles s (innerLoop b k ⟨t, s⟩).1 (innerLoop b k ⟨t, s⟩).2.start ∧
      (innerLoop b k ⟨t, s⟩).2.start + (innerLoop b k ⟨t, s⟩).2.total = s + t ∧
      0 ≤ (innerLoop b k ⟨t, s⟩).2.total ∧
      ((innerLoop b k ⟨t, s⟩).1.length : Int) + ceilDiv (innerLoop b k ⟨t, s⟩).2.total b
        = ceilDiv t b ∧
      (innerLoop b k ⟨t, s⟩).1.length ≤ k ∧
      ((innerLoop b k ⟨t, s⟩).2.total = 0 ∨ (innerLoop b k ⟨t, s⟩).1.length = k) ∧
      (∀ d ∈ (innerLoop b k ⟨t, s⟩).1, d.2 ≤ b) ∧
      (0 < t → 0 < k → (innerLoop b k ⟨t, s⟩).2.total < t) := by
  intro k
  induction k with
  | zero =>
    intro t s ht hs hst
    simp [innerLoop_zero, Tiles, ht]
  | succ k ih =>
    intro t s ht hs hst
    by_cases h0 : t ≤ 0
    · have ht0 : t = 0 := by omega
      subst ht0
      rw [innerLoop_done b (k + 1) ⟨0, s⟩ (by simp)]
      simp [Tiles]
    · have htpos : 0 < t := by omega
      rw [innerLoop_succ b k ⟨t, s⟩ htpos]
      by_cases hlt : t < b
      · simp only [hlt, if_true]
        have e1 : wrapInt (t - t) = 0 := by
          rw [wrapInt_eq _ (by unfold InRange; omega)]; omega
        have e2 : wrapInt (s + t) = s + t := wrapInt_eq _ (by unfold InRange; omega)
        rw [e1, e2, innerLoop_done b k ⟨0, s + t⟩ (by simp)]
        have hc := ceilDiv_small t b htpos (by omega)
        have hz := ceilDiv_zero b hb
        refine ⟨by simp [Tiles, htpos], by simp, by simp, by simp [hc, hz], by simp,
          Or.inl rfl, ?_, fun _ _ => by simpa using htpos⟩
        intro d hd
        simp at hd
        subst hd
        simp only
        omega
      · simp only [hlt, if_false]
        have e1 : wrapInt (t - b) = t - b := wrapInt_eq _ (by unfold InRange; omega)
        have e2 : wrapInt (s + b) = s + b := wrapInt_eq _ (by unfold InRange; omega)
        rw [e1, e2]
        obtain ⟨i1, i2, i3, i4, i5, i6, i7, i8⟩ :=
          ih (t - b) (s + b) (by omega) (by omega) (by omega)
        have hc := ceilDiv_sub t b hb
        refine ⟨by simp [Tiles, hb, i1], by omega, i3, ?_,
          by simp only [List.length_cons]; omega, ?_, ?_, ?_⟩
        · simp only [List.length_cons]
          push_cast
          omega
        · rcases i6 with h | h
          · exact Or.inl h
          · exact Or.inr (by simp [h])
        · intro d hd
          simp only [List.mem_cons] at hd
          rcases hd with rfl | hd
          · simp
          · exact i7 d hd
        · intro _ _
          by_cases hk : 0 < k
          · by_cases htb : 0 < t - b
            · have := i8 htb hk
              omega
            · have hz : t - b = 0 := by omega
              rw [hz, innerLoop_done b k ⟨0, s + b⟩ (by simp)]
              simpa using htpos
          · have hk0 : k = 0 := by omega
            subst hk0
            simp only [innerLoop_zero]
            omega

/-! ## Tilings -/

theorem Tiles_append (xs ys : List Dispatch) :
    ∀ (a m e : Int), Tiles a xs m → Tiles m ys e → Tiles a (xs ++ ys) e := by
  induction xs with
  | nil =>
    intro a m e h1 h2
    simp only [Tiles] at h1
    subst h1
    simpa using h2
  | cons d xs ih =>
    intro a m e h1 h2
    simp only [Tiles] at h1
    simp only [List.cons_append, Tiles]
    exact ⟨h1.1, h1.2.1, ih _ _ _ h1.2.2 h2⟩

/-! ## The outer loop -/

theorem schedule_done (W b : Int) (fuel : Nat) (s : LoopState) (h : s.total ≤ 0) :
    schedule W b fuel s = some ([], s) := by
  have h' : ¬ 0 < s.total := by omega
  cases fuel with
  | zero => simp [schedule, h']
  | succ fuel => simp [schedule, h']

theorem schedule_succ (W b : Int) (fuel : Nat) (s : LoopState) (h : 0 < s.total)
    (ws : List (List Dispatch)) (f : LoopState)
    (hrec : schedule W b fuel (wave W b s).2 = some (ws, f)) :
    schedule W b (fuel + 1) s = some ((wave W b s).1 :: ws, f) := by
  simp [schedule, h, hrec]

theorem schedule_spec (W b : Int) (hW : 0 < W) (hb : 0 < b) :
    ∀ (fuel : Nat) (s : LoopState), 0 ≤ s.total → 0 ≤ s.start →
      s.start + s.total < 9223372036854775808 →
      ceilDiv (ceilDiv s.total b) W ≤ fuel →
      ∃ ws : List (List Dispatch),
        schedule W b fuel s = some (ws, ⟨0, s.start + s.total⟩) ∧
        Tiles s.start ws.flatten (s.start + s.total) ∧
        (ws.flatten.length : Int) = ceilDiv s.total b ∧
        (ws.length : Int) = ceilDiv (ceilDiv s.total b) W ∧
        (∀ w ∈ ws, w ≠ [] ∧ (w.length : Int) ≤ W) ∧
        (∀ w ∈ ws.dropLast, (w.length : Int) = W) ∧
        (∀ d ∈ ws.flatten, d.2 ≤ b) := by
  have finished : ∀ (fuel : Nat) (st : Int), ∃ ws : List (List Dispatch),
        schedule W b fuel ⟨0, st⟩ = some (ws, ⟨0, st + 0⟩) ∧
        Tiles st ws.flatten (st + 0) ∧
        (ws.flatten.length : Int) = ceilDiv 0 b ∧
        (ws.length : Int) = ceilDiv (ceilDiv 0 b) W ∧
        (∀ w ∈ ws, w ≠ [] ∧ (w.length : Int) ≤ W) ∧
        (∀ w ∈ ws.dropLast, (w.length : Int) = W) ∧
        (∀ d ∈ ws.flatten, d.2 ≤ b) := by
    intro fuel st
    refine ⟨[], ?_, ?_, ?_, ?_, ?_, ?_, ?_⟩
    · rw [schedule_done W b fuel ⟨0, st⟩ (by simp)]; simp
    · simp [Tiles]
    · simp [ceilDiv_zero b hb]
    · simp [ceilDiv_zero b hb, ceilDiv_zero W hW]
    · simp
    · simp
    · simp
  intro fuel
  induction fuel with
  | zero =>
    intro s ht hs hst hfuel
    obtain ⟨t, st⟩ := s
    simp only at ht hs hst hfuel ⊢
    have hc : ceilDiv t b ≤ 0 := by
      have h1 := ceilDiv_nonneg t b ht hb
      have := ceilDiv_eq_zero (ceilDiv t b) W h1 hW (by simpa using hfuel)
      omega
    have ht0 : t = 0 := ceilDiv_eq_zero t b ht hb hc
    subst ht0
    exact finished 0 st
  | succ fuel ih =>
    intro s ht hs hst hfuel
    obtain ⟨t, st⟩ := s
    simp only at ht hs hst hfuel ⊢
    by_cases h0 : t ≤ 0
    · have ht0 : t = 0 := by omega
      subst ht0
      exact finished (fuel + 1) st
    · have htpos : 0 < t := by omega
      obtain ⟨i1, i2, i3, i4, i5, i6, i7, _⟩ := innerLoop_spec b hb W.toNat t st ht hs hst
      have hcpos := ceilDiv_pos t b htpos hb
      have hc' := ceilDiv_nonneg _ b i3 hb
      have hWn : ((W.toNat : Nat) : Int) = W := Int.toNat_of_nonneg (by omega)
      have hwave : wave W b ⟨t, st⟩ = innerLoop b W.toNat ⟨t, st⟩ := rfl
      -- the bound on the fuel for the rest of the run
      have hfuel' : ceilDiv (ceilDiv (innerLoop b W.toNat ⟨t, st⟩).2.total b) W ≤ fuel := by
        rcases i6 with h | h
        · rw [h, ceilDiv_zero b hb, ceilDiv_zero W hW]; omega
        · have hlen : ((innerLoop b W.toNat ⟨t, st⟩).1.length : Int) = W := by rw [h, hWn]
          have e : ceilDiv (innerLoop b W.toNat ⟨t, st⟩).2.total b = ceilDiv t b - W := by omega
          rw [e]
          have := ceilDiv_sub (ceilDiv t b) W hW
          push_cast at hfuel
          omega
      obtain ⟨ws, r1, r2, r3, r4, r5, r6, r7⟩ :=
        ih (innerLoop b W.toNat ⟨t, st⟩).2 i3 (by omega) (by omega) hfuel'
      have hlenpos : 0 < (innerLoop b W.toNat ⟨t, st⟩).1.length := by
        rcases i6 with h | h
        · rw [h, ceilDiv_zero b hb] at i4
          omega
        · omega
      have hlenW : ((innerLoop b W.toNat ⟨t, st⟩).1.length : Int) ≤ W := by omega
      refine ⟨(innerLoop b W.toNat ⟨t, st⟩).1 :: ws, ?_, ?_, ?_, ?_, ?_, ?_, ?_⟩
      · rw [schedule_succ W b fuel ⟨t, st⟩ htpos ws _ (by rw [hwave]; exact r1), hwave, i2]
      · rw [List.flatten_cons]
        rw [i2] at r2
        exact Tiles_append _ _ _ _ _ i1 r2
      · rw [List.flatten_cons, List.length_append]
        push_cast
        omega
      · rw [List.length_cons]
        push_cast
        rw [r4]
        rcases i6 with h | h
        · rw [h, ceilDiv_zero b hb] at i4
          rw [h, ceilDiv_zero b hb, ceilDiv_zero W hW]
          have := ceilDiv_small (ceilDiv t b) W hcpos (by omega)
          omega
        · have hlen : ((innerLoop b W.toNat ⟨t, st⟩).1.length : Int) = W := by rw [h, hWn]
          have e : ceilDiv (innerLoop b W.toNat ⟨t, st⟩).2.total b = ceilDiv t b - W := by omega
          rw [e]
          exact ceilDiv_sub (ceilDiv t b) W hW
      · intro w hw
        simp only [List.mem_cons] at hw
        rcases hw with rfl | hw
        · exact ⟨List.ne_nil_of_length_pos hlenpos, hlenW⟩
        · exact r5 w hw
      · intro w hw
        cases ws with
        | nil => simp at hw
        | cons w1 ws1 =>
          rw [List.dropLast_cons₂] at hw
          simp only [List.mem_cons] at hw
          rcases hw with rfl | hw
          · rcases i6 with h | h
            · rw [h, ceilDiv_zero b hb, ceilDiv_zero W hW] at r4
              simp at r4
              omega
            · rw [h, hWn]
          · exact r6 w hw
      · intro d hd
        rw [List.flatten_cons, List.mem_append] at hd
        rcases hd with hd | hd
        · exact i7 d hd
        · exact r7 d hd

theorem schedule_mono (W b : Int) :
    ∀ (fuel : Nat) (s : LoopState) (r : List (List Dispatch) × LoopState),
      schedule W b fuel s = some r →
      ∀ fuel' : Nat, fuel ≤ fuel' → schedule W b fuel' s = some r := by
  intro fuel
  induction fuel with
  | zero =>
    intro s r h fuel' _
    by_cases hs : 0 < s.total
    · simp [schedule, hs] at h
    · rw [schedule_done W b 0 s (by omega)] at h
      rw [schedule_done W b fuel' s (by omega)]
      exact h
  | succ fuel ih =>
    intro s r h fuel' hle
    by_cases hs : 0 < s.total
    · obtain ⟨f, rfl⟩ : ∃ f, fuel' = f + 1 := ⟨fuel' - 1, by omega⟩
      cases hrec : schedule W b fuel (wave W b s).2 with
      | none => simp [schedule, hs, hrec] at h
      | some r0 =>
        rw [schedule_succ W b fuel s hs r0.1 r0.2 hrec] at h
        rw [schedule_succ W b f s hs r0.1 r0.2 (ih _ _ hrec f (by omega))]
        exact h
    · rw [schedule_done W b (fuel + 1) s (by omega)] at h
      rw [schedule_done W b fuel' s (by omega)]
      exact h

theorem ceilDiv_le (t b : Int) (ht : 0 ≤ t) (hb : 0 < b) : ceilDiv t b ≤ t := by
  unfold ceilDiv
  have h : (t + b - 1) / b < t + 1 := by
    apply Int.ediv_lt_of_lt_mul hb
    nlinarith [mul_nonneg ht (by omega : (0 : Int) ≤ b - 1)]
  omega

/-- All that is known of the run of the scheduling loop from `total` records. -/
theorem schedule_run (total W b : Int) (h0 : 0 ≤ total) (hmax : total < 9223372036854775808)
    (hW : 0 < W) (hb : 0 < b) :
    ∃ ws : List (List Dispatch),
      (∀ fuel : Nat, ceilDiv (ceilDiv total b) W ≤ fuel →
        schedule W b fuel ⟨total, 0⟩ = some (ws, ⟨0, total⟩)) ∧
      Tiles 0 ws.flatten total ∧
      (ws.flatten.length : Int) = ceilDiv total b ∧
      (ws.length : Int) = ceilDiv (ceilDiv total b) W ∧
      (∀ w ∈ ws, w ≠ [] ∧ (w.length : Int) ≤ W) ∧
      (∀ w ∈ ws.dropLast, (w.length : Int) = W) ∧
      (∀ d ∈ ws.flatten, d.2 ≤ b) := by
  have hc := ceilDiv_nonneg (ceilDiv total b) W (ceilDiv_nonneg total b h0 hb) hW
  obtain ⟨ws, r1, r2, r3, r4, r5, r6, r7⟩ :=
    schedule_spec W b hW hb (ceilDiv (ceilDiv total b) W).toNat ⟨total, 0⟩ h0 (by simp)
      (by simpa using hmax) (by simp only; omega)
  simp only [zero_add] at r1 r2 r3 r4
  refine ⟨ws, ?_, r2, r3, r4, r5, r6, r7⟩
  intro fuel hfuel
  exact schedule_mono W b _ _ _ r1 fuel (by omega)

theorem fuel_enough (total W b : Int) (h0 : 0 ≤ total) (hW : 0 < W) (hb : 0 < b)
    (fuel : Nat) (h : total.toNat ≤ fuel) : ceilDiv (ceilDiv total b) W ≤ fuel := by
  have h1 := ceilDiv_le total b h0 hb
  have h2 := ceilDiv_le (ceilDiv total b) W (ceilDiv_nonneg total b h0 hb) hW
  omega

/-! ## Consequences of a tiling -/

theorem Tiles_le (ds : List Dispatch) : ∀ (a e : Int), Tiles a ds e → a ≤ e := by
  induction ds with
  | nil => intro a e h; simp only [Tiles] at h; omega
  | cons d ds ih =>
    intro a e h
    simp only [Tiles] at h
    have := ih _ _ h.2.2
    omega

theorem Tiles_bounds (ds : List Dispatch) :
    ∀ (a e : Int), Tiles a ds e → ∀ d ∈ ds, a ≤ d.1 ∧ d.1 + d.2 ≤ e := by
  induction ds with
  | nil => intro a e _ d hd; simp at hd
  | cons d0 ds ih =>
    intro a e h d hd
    simp only [Tiles] at h
    simp only [List.mem_cons] at hd
    rcases hd with rfl | hd
    · have := Tiles_le _ _ _ h.2.2
      omega
    · have := ih _ _ h.2.2 d hd
      omega

theorem Tiles_pairwise (ds : List Dispatch) :
    ∀ (a e : Int), Tiles a ds e → ds.Pairwise (fun d1 d2 => d1.1 + d1.2 ≤ d2.1) := by
  induction ds with
  | nil => intro a e _; exact List.Pairwise.nil
  | cons d0 ds ih =>
    intro a e h
    simp only [Tiles] at h
    refine List.Pairwise.cons ?_ (ih _ _ h.2.2)
    intro d hd
    exact (Tiles_bounds ds _ _ h.2.2 d hd).1

theorem Tiles_count_out (ds : List Dispatch) :
    ∀ (a e i : Int), Tiles a ds e → i < a → ds.countP (fun d => covers d i) = 0 := by
  induction ds with
  | nil => intro a e i _ _; rfl
  | cons d0 ds ih =>
    intro a e i h hi
    simp only [Tiles] at h
    have hn : covers d0 i = false := by
      simp only [covers, Bool.and_eq_false_imp, decide_eq_true_eq, decide_eq_false_iff_not]
      omega
    rw [List.countP_cons, ih _ _ _ h.2.2 (by omega : i < d0.1 + d0.2)]
    simp [hn]

theorem Tiles_count (ds : List Dispatch) :
    ∀ (a e i : Int), Tiles a ds e → a ≤ i → i < e → ds.countP (fun d => covers d i) = 1 := by
  induction ds with
  | nil => intro a e i h _ _; simp only [Tiles] at h; omega
  | cons d0 ds ih =>
    intro a e i h hai hie
    simp only [Tiles] at h
    by_cases hin : i < d0.1 + d0.2
    · have hy : covers d0 i = true := by
        simp only [covers, Bool.and_eq_true, decide_eq_true_eq]
        omega
      rw [List.countP_cons, Tiles_count_out ds _ _ i h.2.2 hin]
      simp [hy]
    · have hn : covers d0 i = false := by
        simp only [covers, Bool.and_eq_false_imp, decide_eq_true_eq, decide_eq_false_iff_not]
        omega
      rw [List.countP_cons, ih _ _ _ h.2.2 (by omega) hie]
      simp [hn]

theorem Tiles_pos (ds : List Dispatch) :
    ∀ (a e : Int), Tiles a ds e → ∀ d ∈ ds, 0 < d.2 := by
  induction ds with
  | nil => intro a e _ d hd; simp at hd
  | cons d0 ds ih =>
    intro a e h d hd
    simp only [Tiles] at h
    simp only [List.mem_cons] at hd
    rcases hd with rfl | hd
    · exact h.2.1
    · exact ih _ _ h.2.2 d hd

theorem ceilDiv_eq_ceil (t b : Int) (hb : 0 < b) : ceilDiv t b = ⌈(t : ℚ) / (b : ℚ)⌉ := by
  symm
  rw [Int.ceil_eq_iff]
  have hbq : (0 : ℚ) < (b : ℚ) := by exact_mod_cast hb
  unfold ceilDiv
  have h1 := Int.ediv_mul_le (t + b - 1) (ne_of_gt hb)
  have h2 := Int.lt_ediv_add_one_mul_self (t + b - 1) hb
  generalize (t + b - 1) / b = q at h1 h2
  constructor
  · rw [lt_div_iff₀ hbq]
    have h : (q - 1) * b < t := by linarith
    exact_mod_cast h
  · rw [div_le_iff₀ hbq]
    have h : t ≤ q * b := by linarith
    exact_mod_cast h

/-! ## Waves as consecutive groups -/

theorem chunks_getElem (W : Nat) (ws : List (List Dispatch)) :
    (∀ w ∈ ws.dropLast, w.length = W) → (∀ w ∈ ws, w.length ≤ W) →
    ∀ j : Nat, j < ws.length → ws[j]? = some ((ws.flatten.drop (j * W)).take W) := by
  induction ws with
  | nil => intro _ _ j hj; simp at hj
  | cons w ws ih =>
    intro hfull hle j hj
    cases ws with
    | nil =>
      have hj0 : j = 0 := by simpa using hj
      subst hj0
      have := hle w (by simp)
      simp [List.take_of_length_le this]
    | cons w1 ws1 =>
      rw [List.dropLast_cons₂] at hfull
      have hw : w.length = W := hfull w (by simp)
      cases j with
      | zero =>
        simp only [List.flatten_cons, zero_mul, List.drop_zero, List.getElem?_cons_zero]
        rw [List.take_append_of_le_length (by omega), List.take_of_length_le (by omega)]
      | succ j =>
        have h := ih (fun x hx => hfull x (List.mem_cons_of_mem _ hx))
          (fun x hx => hle x (List.mem_cons_of_mem _ hx)) j (by simpa using hj)
        have e : (j + 1) * W = w.length + j * W := by rw [hw]; ring
        have hf : (w :: w1 :: ws1).flatten = w ++ (w1 :: ws1).flatten := List.flatten_cons
        rw [List.getElem?_cons_succ, h, hf, e, List.drop_append]

/-! ## The scheduler: tiling, count, waves, termination -/

/-- C1: for `total ≥ 0` (a Go `int`), `worker_num ≥ 1` and `cwe_range ≥ 1`, the
scheduling loop returns, and the ranges it dispatched, in dispatch order, tile
`[0, total)`: they start at 0, follow one another without gap, and end at
`total`. Hence every index of `[0, total)` lies in exactly one of them, none
reaches outside `[0, total)`, and any two of them are disjoint. -/
theorem dispatched_ranges_tile (total worker_num cwe_range : Int)
    (h0 : 0 ≤ total) (hmax : total < 9223372036854775808)
    (hw : 1 ≤ worker_num) (hr : 1 ≤ cwe_range) :
    ∃ (waves : List (List Dispatch)) (final : LoopState),
      (∀ fuel : Nat, total.toNat ≤ fuel →
        schedule worker_num cwe_range fuel ⟨total, 0⟩ = some (waves, final)) ∧
      Tiles 0 waves.flatten total ∧
      (∀ i : Int, 0 ≤ i → i < total → waves.flatten.countP (fun d => covers d i) = 1) ∧
      (∀ d ∈ waves.flatten, 0 ≤ d.1 ∧ 0 < d.2 ∧ d.1 + d.2 ≤ total) ∧
      waves.flatten.Pairwise
        (fun d1 d2 => d1.1 + d1.2 ≤ d2.1 ∧ ∀ i : Int, ¬ (covers d1 i = true ∧ covers d2 i = true)) := by
  obtain ⟨ws, r1, r2, -, -, -, -, -⟩ :=
    schedule_run total worker_num cwe_range h0 hmax (by omega) (by omega)
  refine ⟨ws, ⟨0, total⟩, ?_, r2, ?_, ?_, ?_⟩
  · intro fuel hfuel
    exact r1 fuel (fuel_enough total worker_num cwe_range h0 (by omega) (by omega) fuel hfuel)
  · intro i hi0 hit
    exact Tiles_count _ _ _ i r2 hi0 hit
  · intro d hd
    have hb := Tiles_bounds _ _ _ r2 d hd
    exact ⟨hb.1, Tiles_pos _ _ _ r2 d hd, hb.2⟩
  · refine (Tiles_pairwise _ _ _ r2).imp ?_
    intro d1 d2 h12
    refine ⟨h12, ?_⟩
    intro i hi
    simp only [covers, Bool.and_eq_true, decide_eq_true_eq] at hi
    omega

/-- Witness of C1 at `total = 25`, `worker_num = 2`, `cwe_range = 10`. -/
theorem dispatched_ranges_tile_witness :
    ∃ (waves : List (List Dispatch)) (final : LoopState),
      (∀ fuel : Nat, (25 : Int).toNat ≤ fuel →
        schedule 2 10 fuel ⟨25, 0⟩ = some (waves, final)) ∧
      Tiles 0 waves.flatten 25 ∧
      (∀ i : Int, 0 ≤ i → i < 25 → waves.flatten.countP (fun d => covers d i) = 1) ∧
      (∀ d ∈ waves.flatten, 0 ≤ d.1 ∧ 0 < d.2 ∧ d.1 + d.2 ≤ 25) ∧
      waves.flatten.Pairwise
        (fun d1 d2 => d1.1 + d1.2 ≤ d2.1 ∧ ∀ i : Int, ¬ (covers d1 i = true ∧ covers d2 i = true)) :=
  dispatched_ranges_tile 25 2 10 (by decide) (by decide) (by decide) (by decide)

theorem afterWaves_succ_right (W b : Int) :
    ∀ (k : Nat) (s : LoopState),
      afterWaves W b (k + 1) s = (wave W b (afterWaves W b k s)).2 := by
  intro k
  induction k with
  | zero => intro s; rfl
  | succ k ih =>
    intro s
    show afterWaves W b (k + 1) (wave W b s).2 = _
    rw [ih (wave W b s).2]
    rfl

/-- C2: for `total ≥ 0`, `worker_num ≥ 1` and `cwe_range ≥ 1`, the scheduling
loop returns and the number of worker invocations it dispatched is exactly
`ceil(total / cwe_range)`, whatever `worker_num` is; it is zero when
`total = 0`. -/
theorem worker_invocations_count (total worker_num cwe_range : Int)
    (h0 : 0 ≤ total) (hmax : total < 9223372036854775808)
    (hw : 1 ≤ worker_num) (hr : 1 ≤ cwe_range) :
    ∃ (waves : List (List Dispatch)) (final : LoopState),
      (∀ fuel : Nat, total.toNat ≤ fuel →
        schedule worker_num cwe_range fuel ⟨total, 0⟩ = some (waves, final)) ∧
      (waves.flatten.length : Int) = ⌈(total : ℚ) / (cwe_range : ℚ)⌉ ∧
      (total = 0 → waves.flatten.length = 0) := by
  obtain ⟨ws, r1, -, r3, -, -, -, -⟩ :=
    schedule_run total worker_num cwe_range h0 hmax (by omega) (by omega)
  refine ⟨ws, ⟨0, total⟩, ?_, ?_, ?_⟩
  · intro fuel hfuel
    exact r1 fuel (fuel_enough total worker_num cwe_range h0 (by omega) (by omega) fuel hfuel)
  · rw [r3, ceilDiv_eq_ceil total cwe_range (by omega)]
  · intro ht
    rw [ht, ceilDiv_zero cwe_range (by omega)] at r3
    exact_mod_cast r3

/-- Witness of C2 at `total = 25`, `worker_num = 2`, `cwe_range = 10`. -/
theorem worker_invocations_count_witness :
    ∃ (waves : List (List Dispatch)) (final : LoopState),
      (∀ fuel : Nat, (25 : Int).toNat ≤ fuel →
        schedule 2 10 fuel ⟨25, 0⟩ = some (waves, final)) ∧
      (waves.flatten.length : Int) = ⌈((25 : Int) : ℚ) / ((10 : Int) : ℚ)⌉ ∧
      ((25 : Int) = 0 → waves.flatten.length = 0) :=
  worker_invocations_count 25 2 10 (by decide) (by decide) (by decide) (by decide)

/-- C3: for `total ≥ 0`, `worker_num ≥ 1` and `cwe_range ≥ 1`, the waves of the
scheduling loop are the dispatch-ordered ranges cut into consecutive groups of
`worker_num`: every wave is non-empty and has at most `worker_num` workers,
every wave but the last has exactly `worker_num`, wave `j` is the `worker_num`
dispatches from position `j * worker_num` on, and there are
`ceil(ceil(total / cwe_range) / worker_num)` waves: none when `total = 0`,
and otherwise a single one when `worker_num > total`. For `total = 25`,
`cwe_range = 10`, `worker_num = 2` the waves are `[0,10), [10,20)` and then
`[20,25)`. -/
theorem waves_are_groups (total worker_num cwe_range : Int)
    (h0 : 0 ≤ total) (hmax : total < 9223372036854775808)
    (hw : 1 ≤ worker_num) (hr : 1 ≤ cwe_range) :
    (∃ (waves : List (List Dispatch)) (final : LoopState),
      (∀ fuel : Nat, total.toNat ≤ fuel →
        schedule worker_num cwe_range fuel ⟨total, 0⟩ = some (waves, final)) ∧
      (∀ w ∈ waves, w ≠ [] ∧ (w.length : Int) ≤ worker_num) ∧
      (∀ w ∈ waves.dropLast, (w.length : Int) = worker_num) ∧
      (∀ j : Nat, j < waves.length →
        waves[j]? = some ((waves.flatten.drop (j * worker_num.toNat)).take worker_num.toNat)) ∧
      (waves.length : Int)
        = ⌈((⌈(total : ℚ) / (cwe_range : ℚ)⌉ : Int) : ℚ) / (worker_num : ℚ)⌉ ∧
      (total = 0 → waves = []) ∧
      (0 < total → total < worker_num → waves.length = 1)) ∧
    (∀ fuel : Nat, 2 ≤ fuel →
      schedule 2 10 fuel ⟨25, 0⟩ = some ([[(0, 10), (10, 10)], [(20, 5)]], ⟨0, 25⟩)) := by
  constructor
  · obtain ⟨ws, r1, -, r3, r4, r5, r6, -⟩ :=
      schedule_run total worker_num cwe_range h0 hmax (by omega) (by omega)
    have hWn : ((worker_num.toNat : Nat) : Int) = worker_num := Int.toNat_of_nonneg (by omega)
    refine ⟨ws, ⟨0, total⟩, ?_, r5, r6, ?_, ?_, ?_, ?_⟩
    · intro fuel hfuel
      exact r1 fuel (fuel_enough total worker_num cwe_range h0 (by omega) (by omega) fuel hfuel)
    · apply chunks_getElem
      · intro w hw'
        have := r6 w hw'
        omega
      · intro w hw'
        have := (r5 w hw').2
        omega
    · rw [r4, ceilDiv_eq_ceil _ worker_num (by omega), ceilDiv_eq_ceil total cwe_range (by omega)]
    · intro ht
      rw [ht, ceilDiv_zero cwe_range (by omega), ceilDiv_zero worker_num (by omega)] at r4
      exact List.length_eq_zero.mp (by exact_mod_cast r4)
    · intro htpos htw
      have hc := ceilDiv_pos total cwe_range htpos (by omega)
      have hc2 := ceilDiv_le total cwe_range h0 (by omega)
      rw [ceilDiv_small (ceilDiv total cwe_range) worker_num hc (by omega)] at r4
      exact_mod_cast r4
  · intro fuel hfuel
    exact schedule_mono 2 10 2 ⟨25, 0⟩ _ (by decide) fuel hfuel

/-- Witness of C3 at `total = 7`, `worker_num = 3`, `cwe_range = 2`. -/
theorem waves_are_groups_witness :
    (∃ (waves : List (List Dispatch)) (final : LoopState),
      (∀ fuel : Nat, (7 : Int).toNat ≤ fuel →
        schedule 3 2 fuel ⟨7, 0⟩ = some (waves, final)) ∧
      (∀ w ∈ waves, w ≠ [] ∧ (w.length : Int) ≤ 3) ∧
      (∀ w ∈ waves.dropLast, (w.length : Int) = 3) ∧
      (∀ j : Nat, j < waves.length →
        waves[j]? = some ((waves.flatten.drop (j * (3 : Int).toNat)).take (3 : Int).toNat)) ∧
      (waves.length : Int)
        = ⌈((⌈((7 : Int) : ℚ) / ((2 : Int) : ℚ)⌉ : Int) : ℚ) / ((3 : Int) : ℚ)⌉ ∧
      ((7 : Int) = 0 → waves = []) ∧
      ((0 : Int) < 7 → (7 : Int) < 3 → waves.length = 1)) ∧
    (∀ fuel : Nat, 2 ≤ fuel →
      schedule 2 10 fuel ⟨25, 0⟩ = some ([[(0, 10), (10, 10)], [(20, 5)]], ⟨0, 25⟩)) :=
  waves_are_groups 7 3 2 (by decide) (by decide) (by decide) (by decide)

theorem wave_inv (W b : Int) (hb : 0 < b) (s : LoopState)
    (ht : 0 ≤ s.total) (hs : 0 ≤ s.start) (hst : s.start + s.total < 9223372036854775808) :
    0 ≤ (wave W b s).2.total ∧ 0 ≤ (wave W b s).2.start ∧
    (wave W b s).2.start + (wave W b s).2.total = s.start + s.total ∧
    (0 < W → 0 < s.total → (wave W b s).2.total < s.total) := by
  obtain ⟨t, st⟩ := s
  obtain ⟨i1, i2, i3, -, -, -, -, i8⟩ := innerLoop_spec b hb W.toNat t st ht hs hst
  have hle := Tiles_le _ _ _ i1
  refine ⟨i3, ?_, i2, ?_⟩
  · simp only at hs
    exact le_trans hs hle
  · intro hW htpos
    exact i8 htpos (by omega)

theorem afterWaves_inv (W b : Int) (hb : 0 < b) :
    ∀ (k : Nat) (s : LoopState), 0 ≤ s.total → 0 ≤ s.start →
      s.start + s.total < 9223372036854775808 →
      0 ≤ (afterWaves W b k s).total ∧ 0 ≤ (afterWaves W b k s).start ∧
      (afterWaves W b k s).start + (afterWaves W b k s).total = s.start + s.total := by
  intro k
  induction k with
  | zero => intro s ht hs _; exact ⟨ht, hs, rfl⟩
  | succ k ih =>
    intro s ht hs hst
    obtain ⟨w1, w2, w3, -⟩ := wave_inv W b hb s ht hs hst
    obtain ⟨a1, a2, a3⟩ := ih (wave W b s).2 w1 w2 (by omega)
    exact ⟨a1, a2, by simp only [afterWaves]; omega⟩

/-- C7: for `total ≥ 0`, `worker_num ≥ 1` and `cwe_range ≥ 1`, the scheduling
loop terminates; at exit the remaining counter `total` is exactly 0 and the
cursor `start` is the original number of records; the remaining counter is
never negative, and every wave entered (remaining counter positive) strictly
decreases it. -/
theorem scheduling_terminates (total worker_num cwe_range : Int)
    (h0 : 0 ≤ total) (hmax : total < 9223372036854775808)
    (hw : 1 ≤ worker_num) (hr : 1 ≤ cwe_range) :
    (∃ waves : List (List Dispatch), ∀ fuel : Nat, total.toNat ≤ fuel →
      schedule worker_num cwe_range fuel ⟨total, 0⟩ = some (waves, ⟨0, total⟩)) ∧
    (∀ k : Nat,
      0 ≤ (afterWaves worker_num cwe_range k ⟨total, 0⟩).total ∧
      (0 < (afterWaves worker_num cwe_range k ⟨total, 0⟩).total →
        (afterWaves worker_num cwe_range (k + 1) ⟨total, 0⟩).total
          < (afterWaves worker_num cwe_range k ⟨total, 0⟩).total)) := by
  constructor
  · obtain ⟨ws, r1, -⟩ :=
      schedule_run total worker_num cwe_range h0 hmax (by omega) (by omega)
    exact ⟨ws, fun fuel hfuel =>
      r1 fuel (fuel_enough total worker_num cwe_range h0 (by omega) (by omega) fuel hfuel)⟩
  · intro k
    obtain ⟨a1, a2, a3⟩ := afterWaves_inv worker_num cwe_range (by omega) k ⟨total, 0⟩ h0
      (by simp) (by simpa using hmax)
    refine ⟨a1, ?_⟩
    intro hpos
    rw [afterWaves_succ_right]
    simp only [zero_add] at a3
    exact (wave_inv worker_num cwe_range (by omega) _ a1 a2 (by omega)).2.2.2 (by omega) hpos

/-- Witness of C7 at `total = 25`, `worker_num = 2`, `cwe_range = 10`. -/
theorem scheduling_terminates_witness :
    (∃ waves : List (List Dispatch), ∀ fuel : Nat, (25 : Int).toNat ≤ fuel →
      schedule 2 10 fuel ⟨25, 0⟩ = some (waves, ⟨0, 25⟩)) ∧
    (∀ k : Nat,
      0 ≤ (afterWaves 2 10 k ⟨25, 0⟩).total ∧
      (0 < (afterWaves 2 10 k ⟨25, 0⟩).total →
        (afterWaves 2 10 (k + 1) ⟨25, 0⟩).total < (afterWaves 2 10 k ⟨25, 0⟩).total)) :=
  scheduling_terminates 25 2 10 (by decide) (by decide) (by decide) (by decide)

/-! ## The scheduler outside its configuration precondition -/

theorem schedule_stuck (W b : Int) (s : LoopState) (hpos : 0 < s.total)
    (hfix : (wave W b s).2 = s) : ∀ fuel : Nat, schedule W b fuel s = none := by
  intro fuel
  induction fuel with
  | zero => simp [schedule, hpos]
  | succ fuel ih => simp [schedule, hpos, hfix, ih]

theorem afterWaves_stuck (W b : Int) (s : LoopState) (hfix : (wave W b s).2 = s) :
    ∀ k : Nat, afterWaves W b k s = s := by
  intro k
  induction k with
  | zero => rfl
  | succ k ih =>
    show afterWaves W b k (wave W b s).2 = s
    rw [hfix, ih]

theorem wave_no_worker (W b : Int) (hW : W ≤ 0) (s : LoopState) : wave W b s = ([], s) := by
  have h : W.toNat = 0 := Int.toNat_eq_zero.mpr hW
  simp [wave, h, innerLoop_zero]

theorem innerLoop_range_zero :
    ∀ (k : Nat) (t s : Int), 0 < t → InRange t → InRange s →
      (innerLoop 0 k ⟨t, s⟩).1 = List.replicate k (s, 0) ∧
      (innerLoop 0 k ⟨t, s⟩).2 = ⟨t, s⟩ := by
  intro k
  induction k with
  | zero => intro t s _ _ _; exact ⟨rfl, rfl⟩
  | succ k ih =>
    intro t s ht hrt hrs
    rw [innerLoop_succ 0 k ⟨t, s⟩ ht]
    have hn : ¬ t < 0 := by omega
    simp only [hn, if_false]
    have e1 : wrapInt (t - 0) = t := by rw [sub_zero]; exact wrapInt_eq t hrt
    have e2 : wrapInt (s + 0) = s := by rw [add_zero]; exact wrapInt_eq s hrs
    rw [e1, e2]
    obtain ⟨h1, h2⟩ := ih t s ht hrt hrs
    exact ⟨by rw [h1, List.replicate_succ], h2⟩

/-- C9 as stated fails: with `total = 1`, `worker_num = 1` and
`cwe_range = -2^62` the remaining counter wraps around after the second
dispatch and the loop exits with a negative counter. -/
theorem negative_range_exits :
    (0 : Int) < 1 ∧ (-4611686018427387904 : Int) ≤ 0 ∧ InRange (-4611686018427387904) ∧
    schedule 1 (-4611686018427387904) 2 ⟨1, 0⟩
      = some ([[(0, -4611686018427387904)],
               [(-4611686018427387904, -4611686018427387904)]],
              ⟨-9223372036854775807, -9223372036854775808⟩) ∧
    (afterWaves 1 (-4611686018427387904) 2 ⟨1, 0⟩).total ≤ 0 := by
  decide

/-- C9, amended: the flag values are not validated, and for every `total > 0`
(a Go `int`), if `worker_num ≤ 0` (no worker is ever dispatched) or
`cwe_range = 0` (each of the `worker_num` dispatches of a wave takes `n = 0`
records from `start = 0`), the loop variables never change, no state with
remaining counter `≤ 0` is ever reached and the loop runs forever. -/
theorem scheduling_diverges (total worker_num cwe_range : Int)
    (hpos : 0 < total) (hmax : total < 9223372036854775808)
    (hflags : worker_num ≤ 0 ∨ cwe_range = 0) :
    (∀ fuel : Nat, schedule worker_num cwe_range fuel ⟨total, 0⟩ = none) ∧
    (∀ k : Nat, afterWaves worker_num cwe_range k ⟨total, 0⟩ = ⟨total, 0⟩ ∧
      0 < (afterWaves worker_num cwe_range k ⟨total, 0⟩).total) ∧
    (worker_num ≤ 0 → (wave worker_num cwe_range ⟨total, 0⟩).1 = []) ∧
    (cwe_range = 0 →
      (wave worker_num cwe_range ⟨total, 0⟩).1 = List.replicate worker_num.toNat (0, 0)) := by
  have hfix : (wave worker_num cwe_range ⟨total, 0⟩).2 = ⟨total, 0⟩ := by
    by_cases hW : worker_num ≤ 0
    · rw [wave_no_worker worker_num cwe_range hW]
    · have hb : cwe_range = 0 := by
        rcases hflags with h | h
        · exact absurd h hW
        · exact h
      subst hb
      exact (innerLoop_range_zero worker_num.toNat total 0 hpos
        (by unfold InRange; omega) (by unfold InRange; omega)).2
  refine ⟨schedule_stuck worker_num cwe_range ⟨total, 0⟩ hpos hfix, ?_, ?_, ?_⟩
  · intro k
    have hk := afterWaves_stuck worker_num cwe_range ⟨total, 0⟩ hfix k
    exact ⟨hk, by rw [hk]; exact hpos⟩
  · intro hW
    rw [wave_no_worker worker_num cwe_range hW]
  · intro hb
    subst hb
    exact (innerLoop_range_zero worker_num.toNat total 0 hpos
      (by unfold InRange; omega) (by unfold InRange; omega)).1

/-- Witness of the amended C9 at `total = 3`, `worker_num = 2`, `cwe_range = 0`:
every wave dispatches two workers on the empty range at 0 and leaves the loop
variables as they were. -/
theorem scheduling_diverges_witness :
    ((0 : Int) < 3 ∧ ((2 : Int) ≤ 0 ∨ (0 : Int) = 0)) ∧
    (wave 2 0 ⟨3, 0⟩).1 = [(0, 0), (0, 0)] ∧
    ((∀ fuel : Nat, schedule 2 0 fuel ⟨3, 0⟩ = none) ∧
    (∀ k : Nat, afterWaves 2 0 k ⟨3, 0⟩ = ⟨3, 0⟩ ∧
      0 < (afterWaves 2 0 k ⟨3, 0⟩).total) ∧
    ((2 : Int) ≤ 0 → (wave 2 0 ⟨3, 0⟩).1 = []) ∧
    ((0 : Int) = 0 → (wave 2 0 ⟨3, 0⟩).1 = List.replicate (2 : Int).toNat (0, 0))) :=
  ⟨by decide, by decide,
   scheduling_diverges 3 2 0 (by decide) (by decide) (Or.inr rfl)⟩

/-! ## The CWE parser -/

theorem cellsEach_ge_two (trim : String → String) (cells : List String) :
    ∀ (j : Nat) (info : CVEInfo), 2 ≤ j → cellsEach trim j cells info = info := by
  induction cells with
  | nil => intro j info _; rfl
  | cons c cells ih =>
    intro j info hj
    have h0 : j ≠ 0 := by omega
    have h1 : j ≠ 1 := by omega
    simp only [cellsEach, cellStep, h0, h1, if_false]
    exact ih (j + 1) info (by omega)

theorem cellsEach_row (trim : String → String) (row : List String) (info : CVEInfo) :
    cellsEach trim 0 row info =
      { info with
        CWEId := info.CWEId ++ (row[0]?.map trim).toList
        CWEDesc := info.CWEDesc ++ (row[1]?).toList } := by
  match row with
  | [] => simp [cellsEach]
  | [c] => simp [cellsEach, cellStep]
  | c :: d :: rest =>
    simp only [cellsEach, cellStep]
    rw [cellsEach_ge_two trim rest 2 _ (le_refl 2)]
    simp

theorem rowsEach_table (trim : String → String) (table : Table) :
    ∀ info : CVEInfo, rowsEach trim table info =
      { info with
        CWEId := info.CWEId ++ tableIds trim table
        CWEDesc := info.CWEDesc ++ tableDescs table } := by
  induction table with
  | nil => intro info; simp [rowsEach, tableIds, tableDescs]
  | cons row rows ih =>
    intro info
    simp only [rowsEach]
    rw [ih, cellsEach_row]
    simp [tableIds, tableDescs, List.flatMap_cons, List.append_assoc]

theorem tableIds_pairs (trim : String → String) (raw : List (String × String)) :
    tableIds trim (tableOfPairs raw) = (fetch_weaknesses trim raw).map Prod.fst := by
  induction raw with
  | nil => rfl
  | cons p raw ih =>
    simp only [tableIds, tableOfPairs, fetch_weaknesses] at ih ⊢
    simp [List.flatMap_cons, ih]

theorem tableDescs_pairs (trim : String → String) (raw : List (String × String)) :
    tableDescs (tableOfPairs raw) = (fetch_weaknesses trim raw).map Prod.snd := by
  induction raw with
  | nil => rfl
  | cons p raw ih =>
    simp only [tableDescs, tableOfPairs, fetch_weaknesses] at ih ⊢
    simp [List.flatMap_cons, ih]

theorem enrichRecord_pairs (trim : String → String) (raw : String → List (String × String))
    (r : CVEInfo) :
    enrichRecord trim (fun name => tableOfPairs (raw name)) r = withWeaknesses trim raw r := by
  simp only [enrichRecord, cve_cwe_get, rowsEach_table, tableIds_pairs,
    tableDescs_pairs trim, withWeaknesses]

/-! ## Record updates -/

theorem enrichAt_some (trim : String → String) (page : String → Table) (i : Int)
    (st : List CVEInfo) (h0 : 0 ≤ i) (h : i.toNat < st.length) :
    enrichAt trim page i st = some (st.set i.toNat (enrichRecord trim page st[i.toNat])) := by
  simp [enrichAt, h0, List.getElem?_eq_getElem h, enrichRecord]

theorem enrichSeq_spec (trim : String → String) (page : String → Table) (L : List Int) :
    ∀ st : List CVEInfo, (∀ x ∈ L, 0 ≤ x ∧ x < st.length) →
      ∃ st' : List CVEInfo, enrichSeq trim page L st = some st' ∧ st'.length = st.length ∧
        ∀ j : Nat, st'[j]? = (st[j]?).map ((enrichRecord trim page)^[L.count (j : Int)]) := by
  induction L with
  | nil =>
    intro st _
    exact ⟨st, rfl, rfl, fun j => by simp⟩
  | cons x L ih =>
    intro st hx
    have hx0 := hx x (by simp)
    have hlt : x.toNat < st.length := by omega
    obtain ⟨st', h1, h2, h3⟩ := ih (st.set x.toNat (enrichRecord trim page st[x.toNat]))
      (by
        intro y hy
        rw [List.length_set]
        exact hx y (List.mem_cons_of_mem _ hy))
    refine ⟨st', ?_, by rw [h2, List.length_set], ?_⟩
    · simp only [enrichSeq, enrichAt_some trim page x st hx0.1 hlt]
      exact h1
    · intro j
      rw [h3 j, List.getElem?_set, List.count_cons]
      by_cases hj : x.toNat = j
      · have hb : (x == (j : Int)) = true := by rw [beq_iff_eq]; omega
        rw [if_pos hj, if_pos hlt, hb, if_pos rfl]
        subst hj
        rw [List.getElem?_eq_getElem hlt, Option.map_some', Option.map_some',
          Function.iterate_succ_apply]
      · have hxj : ¬ x = (j : Int) := by omega
        simp [hj, hxj]

theorem enrichSeq_append (trim : String → String) (page : String → Table) (L1 L2 : List Int) :
    ∀ st : List CVEInfo, enrichSeq trim page (L1 ++ L2) st =
      match enrichSeq trim page L1 st with
      | none => none
      | some st' => enrichSeq trim page L2 st' := by
  induction L1 with
  | nil => intro st; rfl
  | cons x L1 ih =>
    intro st
    simp only [List.cons_append, enrichSeq]
    cases enrichAt trim page x st with
    | none => rfl
    | some st1 => exact ih st1

/-! ## The worker -/

theorem workerLoop_eq (trim : String → String) (page : String → Table) :
    ∀ (k : Nat) (i : Int) (st : List CVEInfo),
      -9223372036854775808 ≤ i → i + (k : Int) < 9223372036854775808 →
      workerLoop trim page k i st = enrichSeq trim page (intRange k i) st := by
  intro k
  induction k with
  | zero => intro i st _ _; rfl
  | succ k ih =>
    intro i st hlo hhi
    simp only [workerLoop, intRange, enrichSeq]
    cases enrichAt trim page i st with
    | none => rfl
    | some st1 =>
      push_cast at hhi
      rw [wrapInt_eq (i + 1) (by unfold InRange; omega)]
      exact ih (i + 1) st1 (by omega) (by omega)

theorem worker_eq (trim : String → String) (page : String → Table) (d : Dispatch)
    (st : List CVEInfo) (h1 : 0 ≤ d.1) (h2 : 0 ≤ d.2) (h3 : d.1 + d.2 < 9223372036854775808) :
    worker_range_cwe_get trim page d.1 d.2 st = enrichSeq trim page (workerIndexes d) st := by
  unfold worker_range_cwe_get workerIndexes
  rw [wrapInt_eq (d.1 + d.2) (by unfold InRange; omega)]
  have e : d.1 + d.2 - d.1 = d.2 := by omega
  rw [e]
  exact workerLoop_eq trim page d.2.toNat d.1 st (by omega) (by omega)

theorem runWorkers_eq (trim : String → String) (page : String → Table) (ds : List Dispatch) :
    (∀ d ∈ ds, 0 ≤ d.1 ∧ 0 ≤ d.2 ∧ d.1 + d.2 < 9223372036854775808) →
    ∀ st : List CVEInfo,
      runWorkers trim page ds st = enrichSeq trim page (ds.flatMap workerIndexes) st := by
  induction ds with
  | nil => intro _ st; rfl
  | cons d ds ih =>
    intro h st
    have hd := h d (by simp)
    rw [List.flatMap_cons, enrichSeq_append]
    simp only [runWorkers]
    rw [worker_eq trim page d st hd.1 hd.2.1 hd.2.2]
    cases enrichSeq trim page (workerIndexes d) st with
    | none => rfl
    | some st1 => exact ih (fun x hx => h x (List.mem_cons_of_mem _ hx)) st1

theorem intRange_mem : ∀ (k : Nat) (i x : Int),
    x ∈ intRange k i ↔ i ≤ x ∧ x < i + (k : Int) := by
  intro k
  induction k with
  | zero => intro i x; simp only [intRange, List.not_mem_nil, false_iff]; omega
  | succ k ih =>
    intro i x
    simp only [intRange, List.mem_cons, ih]
    push_cast
    omega

theorem intRange_count : ∀ (k : Nat) (i j : Int),
    (intRange k i).count j = if i ≤ j ∧ j < i + (k : Int) then 1 else 0 := by
  intro k
  induction k with
  | zero =>
    intro i j
    have h : ¬ (i ≤ j ∧ j < i + ((0 : Nat) : Int)) := by omega
    simp only [intRange, List.count_nil, h, if_false]
  | succ k ih =>
    intro i j
    simp only [intRange, List.count_cons, ih]
    push_cast
    by_cases hij : i = j
    · subst hij
      have h1 : ¬ (i + 1 ≤ i ∧ i < i + 1 + (k : Int)) := by omega
      have h2 : i ≤ i ∧ i < i + ((k : Int) + 1) := by omega
      rw [if_neg h1, if_pos h2]
      simp
    · have hne : (i == j) = false := by simpa using hij
      rw [hne]
      by_cases h1 : i + 1 ≤ j ∧ j < i + 1 + (k : Int)
      · have h2 : i ≤ j ∧ j < i + ((k : Int) + 1) := by omega
        rw [if_pos h1, if_pos h2]
        simp
      · have h2 : ¬ (i ≤ j ∧ j < i + ((k : Int) + 1)) := by omega
        rw [if_neg h1, if_neg h2]
        simp

theorem Tiles_index_count (ds : List Dispatch) :
    ∀ (a e j : Int), Tiles a ds e →
      (ds.flatMap workerIndexes).count j = if a ≤ j ∧ j < e then 1 else 0 := by
  induction ds with
  | nil =>
    intro a e j h
    simp only [Tiles] at h
    have hn : ¬ (a ≤ j ∧ j < e) := by omega
    simp only [List.flatMap_nil, List.count_nil, hn, if_false]
  | cons d ds ih =>
    intro a e j h
    simp only [Tiles] at h
    have hle := Tiles_le _ _ _ h.2.2
    rw [List.flatMap_cons, List.count_append, ih _ _ j h.2.2, workerIndexes, intRange_count]
    have hc : ((d.2.toNat : Nat) : Int) = d.2 := Int.toNat_of_nonneg (by omega)
    rw [hc]
    by_cases h1 : d.1 ≤ j ∧ j < d.1 + d.2
    · have h2 : ¬ (d.1 + d.2 ≤ j ∧ j < e) := by omega
      have h3 : a ≤ j ∧ j < e := by omega
      rw [if_pos h1, if_neg h2, if_pos h3]
    · by_cases h2 : d.1 + d.2 ≤ j ∧ j < e
      · have h3 : a ≤ j ∧ j < e := by omega
        rw [if_neg h1, if_pos h2, if_pos h3]
      · have h3 : ¬ (a ≤ j ∧ j < e) := by omega
        rw [if_neg h1, if_neg h2, if_neg h3]

theorem worker_local (trim : String → String) (page : String → Table) (d : Dispatch)
    (st : List CVEInfo) (h1 : 0 ≤ d.1) (h2 : 0 ≤ d.2) (h3 : d.1 + d.2 ≤ st.length)
    (h4 : (st.length : Int) < 9223372036854775808) :
    ∃ st' : List CVEInfo, worker_range_cwe_get trim page d.1 d.2 st = some st' ∧
      st'.length = st.length ∧
      ∀ j : Nat, covers d j = false → st'[j]? = st[j]? := by
  have hc : ((d.2.toNat : Nat) : Int) = d.2 := Int.toNat_of_nonneg h2
  obtain ⟨st', e1, e2, e3⟩ := enrichSeq_spec trim page (workerIndexes d) st (by
    intro x hx
    rw [workerIndexes, intRange_mem, hc] at hx
    omega)
  refine ⟨st', ?_, e2, ?_⟩
  · rw [worker_eq trim page d st h1 h2 (by omega)]
    exact e1
  · intro j hj
    rw [e3 j, workerIndexes, intRange_count, hc]
    have hn : ¬ (d.1 ≤ (j : Int) ∧ (j : Int) < d.1 + d.2) := by
      simp only [covers, Bool.and_eq_false_imp, decide_eq_true_eq, decide_eq_false_iff_not] at hj
      omega
    rw [if_neg hn]
    simp

theorem enrichSeq_perm (trim : String → String) (page : String → Table) (ds : List Dispatch)
    (st : List CVEInfo) (ht : Tiles 0 ds st.length) (order : List Int)
    (hp : order.Perm (ds.flatMap workerIndexes)) :
    enrichSeq trim page order st = some (st.map (enrichRecord trim page)) := by
  have hcount : ∀ j : Int, order.count j = if 0 ≤ j ∧ j < st.length then 1 else 0 := by
    intro j
    rw [hp.count_eq j, Tiles_index_count ds 0 _ j ht]
  obtain ⟨st', e1, e2, e3⟩ := enrichSeq_spec trim page order st (by
    intro x hx
    have hpos : 0 < order.count x := List.count_pos_iff.mpr hx
    rw [hcount x] at hpos
    by_contra hn
    rw [if_neg hn] at hpos
    omega)
  rw [e1]
  congr 1
  apply List.ext_getElem?
  intro j
  rw [e3 j, hcount, List.getElem?_map]
  by_cases hj : j < st.length
  · have hin : (0 : Int) ≤ (j : Int) ∧ (j : Int) < st.length := by omega
    rw [if_pos hin]
    rfl
  · rw [List.getElem?_eq_none (by omega)]
    rfl

/-- C5: for every record store, every fetch function `raw` from identifier to
(code, description) pairs, and `worker_num ≥ 1`, `cwe_range ≥ 1` with
`total = len(cve_infos)`: the scheduling loop and its workers return, and the
store they leave has the same length, every record keeping its `Id`, `Href` and
`Description`, its weakness lists being the previous ones with the fetch
result for its own `Id` appended once. The same store results from every order
in which the record updates of the dispatched workers are made. Every index is
in the range of exactly one dispatched worker, and a worker changes no record
outside its own range. -/
theorem enrichment_appends_once (trim : String → String)
    (raw : String → List (String × String)) (cve_infos : List CVEInfo)
    (worker_num cwe_range : Int)
    (hlen : (cve_infos.length : Int) < 9223372036854775808)
    (hw : 1 ≤ worker_num) (hr : 1 ≤ cwe_range) :
    ∃ (waves : List (List Dispatch)) (final : LoopState),
      (∀ fuel : Nat, cve_infos.length ≤ fuel →
        schedule worker_num cwe_range fuel ⟨cve_infos.length, 0⟩ = some (waves, final)) ∧
      (∀ fuel : Nat, cve_infos.length ≤ fuel →
        enrichAll trim (fun name => tableOfPairs (raw name)) worker_num cwe_range fuel cve_infos
          = some (cve_infos.map (withWeaknesses trim raw))) ∧
      (∀ order : List Int, order.Perm (waves.flatten.flatMap workerIndexes) →
        enrichSeq trim (fun name => tableOfPairs (raw name)) order cve_infos
          = some (cve_infos.map (withWeaknesses trim raw))) ∧
      (∀ i : Nat, i < cve_infos.length →
        waves.flatten.countP (fun d => covers d (i : Int)) = 1) ∧
      (∀ d ∈ waves.flatten, ∀ st : List CVEInfo, st.length = cve_infos.length →
        ∃ st' : List CVEInfo,
          worker_range_cwe_get trim (fun name => tableOfPairs (raw name)) d.1 d.2 st = some st' ∧
          st'.length = st.length ∧
          ∀ j : Nat, covers d (j : Int) = false → st'[j]? = st[j]?) := by
  obtain ⟨ws, r1, r2, -, -, -, -, -⟩ :=
    schedule_run cve_infos.length worker_num cwe_range (by omega) hlen (by omega) (by omega)
  have hfuel : ∀ fuel : Nat, cve_infos.length ≤ fuel →
      schedule worker_num cwe_range fuel ⟨cve_infos.length, 0⟩
        = some (ws, ⟨0, cve_infos.length⟩) := by
    intro fuel hf
    exact r1 fuel (fuel_enough cve_infos.length worker_num cwe_range (by omega) (by omega)
      (by omega) fuel (by omega))
  have hmap : cve_infos.map (enrichRecord trim (fun name => tableOfPairs (raw name)))
      = cve_infos.map (withWeaknesses trim raw) := by
    apply List.map_congr_left
    intro r _
    exact enrichRecord_pairs trim raw r
  have hbounds : ∀ d ∈ ws.flatten, 0 ≤ d.1 ∧ 0 < d.2 ∧ d.1 + d.2 ≤ cve_infos.length := by
    intro d hd
    have hb := Tiles_bounds _ _ _ r2 d hd
    exact ⟨hb.1, Tiles_pos _ _ _ r2 d hd, hb.2⟩
  refine ⟨ws, ⟨0, cve_infos.length⟩, hfuel, ?_, ?_, ?_, ?_⟩
  · intro fuel hf
    simp only [enrichAll, hfuel fuel hf]
    rw [runWorkers_eq _ _ _ (by
      intro d hd
      have := hbounds d hd
      omega)]
    rw [enrichSeq_perm _ _ ws.flatten cve_infos r2 _ (List.Perm.refl _), hmap]
  · intro order hp
    rw [enrichSeq_perm _ _ ws.flatten cve_infos r2 order hp, hmap]
  · intro i hi
    exact Tiles_count _ _ _ (i : Int) r2 (by omega) (by omega)
  · intro d hd st hst
    have := hbounds d hd
    exact worker_local _ _ d st (by omega) (by omega) (by omega) (by omega)

/-- Witness of C5 on a store of two records, one worker per wave, one record
per worker. -/
theorem enrichment_appends_once_witness :
    ∃ (waves : List (List Dispatch)) (final : LoopState),
      (∀ fuel : Nat, [(⟨"CVE-1", "", "", [], []⟩ : CVEInfo), ⟨"CVE-2", "", "", [], []⟩].length ≤ fuel →
        schedule 1 1 fuel
          ⟨[(⟨"CVE-1", "", "", [], []⟩ : CVEInfo), ⟨"CVE-2", "", "", [], []⟩].length, 0⟩
          = some (waves, final)) ∧
      (∀ fuel : Nat, [(⟨"CVE-1", "", "", [], []⟩ : CVEInfo), ⟨"CVE-2", "", "", [], []⟩].length ≤ fuel →
        enrichAll (fun c => c) (fun name => tableOfPairs ((fun _ => [("CWE-79", "XSS")]) name)) 1 1
          fuel [⟨"CVE-1", "", "", [], []⟩, ⟨"CVE-2", "", "", [], []⟩]
          = some ([(⟨"CVE-1", "", "", [], []⟩ : CVEInfo), ⟨"CVE-2", "", "", [], []⟩].map
              (withWeaknesses (fun c => c) (fun _ => [("CWE-79", "XSS")])))) ∧
      (∀ order : List Int, order.Perm (waves.flatten.flatMap workerIndexes) →
        enrichSeq (fun c => c) (fun name => tableOfPairs ((fun _ => [("CWE-79", "XSS")]) name))
          order [⟨"CVE-1", "", "", [], []⟩, ⟨"CVE-2", "", "", [], []⟩]
          = some ([(⟨"CVE-1", "", "", [], []⟩ : CVEInfo), ⟨"CVE-2", "", "", [], []⟩].map
              (withWeaknesses (fun c => c) (fun _ => [("CWE-79", "XSS")])))) ∧
      (∀ i : Nat, i < [(⟨"CVE-1", "", "", [], []⟩ : CVEInfo), ⟨"CVE-2", "", "", [], []⟩].length →
        waves.flatten.countP (fun d => covers d (i : Int)) = 1) ∧
      (∀ d ∈ waves.flatten, ∀ st : List CVEInfo,
        st.length = [(⟨"CVE-1", "", "", [], []⟩ : CVEInfo), ⟨"CVE-2", "", "", [], []⟩].length →
        ∃ st' : List CVEInfo,
          worker_range_cwe_get (fun c => c)
            (fun name => tableOfPairs ((fun _ => [("CWE-79", "XSS")]) name)) d.1 d.2 st = some st' ∧
          st'.length = st.length ∧
          ∀ j : Nat, covers d (j : Int) = false → st'[j]? = st[j]?) :=
  enrichment_appends_once (fun c => c) (fun _ => [("CWE-79", "XSS")])
    [⟨"CVE-1", "", "", [], []⟩, ⟨"CVE-2", "", "", [], []⟩] 1 1 (by decide) (by decide) (by decide)

/-! ## Alignment of the two weakness lists -/

theorem table_lists_aligned (trim : String → String) (table : Table)
    (h : ∀ row ∈ table, row.length ≠ 1) :
    (tableIds trim table).length = (tableDescs table).length := by
  induction table with
  | nil => rfl
  | cons row rows ih =>
    have hrow := h row (by simp)
    have hrest := ih (fun r hr => h r (List.mem_cons_of_mem _ hr))
    simp only [tableIds, tableDescs, List.flatMap_cons, List.length_append] at hrest ⊢
    rw [hrest]
    match row, hrow with
    | [], _ => simp
    | [c], hc => simp at hc
    | c :: d :: rest, _ => simp

/-- Rows that have no cell or at least two cells keep the two lists aligned. -/
theorem cve_cwe_get_aligned (trim : String → String) (page : String → Table)
    (info : CVEInfo) (name : String) (hrows : ∀ row ∈ page name, row.length ≠ 1)
    (hinfo : info.CWEId.length = info.CWEDesc.length) :
    (cve_cwe_get trim page info name).CWEId.length
      = (cve_cwe_get trim page info name).CWEDesc.length := by
  simp only [cve_cwe_get, rowsEach_table, List.length_append, hinfo,
    table_lists_aligned trim (page name) hrows]

/-- C10 fails on the code: a table row with a single cell appends a code and no
description, so a record with aligned (empty) lists comes out with
`len(CWEId) = 1` and `len(CWEDesc) = 0`, and the lookup `CWEDesc[j]` of
`excel_output` is then out of range. -/
theorem one_cell_row_misaligns (trim : String → String) :
    (cve_cwe_get trim (fun _ => [["CWE-79"]]) ⟨"CVE-1", "", "", [], []⟩ "CVE-1").CWEId.length = 1 ∧
    (cve_cwe_get trim (fun _ => [["CWE-79"]]) ⟨"CVE-1", "", "", [], []⟩ "CVE-1").CWEDesc.length = 0 ∧
    columnD (cve_cwe_get trim (fun _ => [["CWE-79"]]) ⟨"CVE-1", "", "", [], []⟩ "CVE-1") = none ∧
    excel_output none none
      [cve_cwe_get trim (fun _ => [["CWE-79"]]) ⟨"CVE-1", "", "", [], []⟩ "CVE-1"] = none := by
  simp [cve_cwe_get, rowsEach, cellsEach, cellStep, columnD, cweInfosLoop, excel_output,
    rowsLoop]

/-! ## The report writer -/

theorem intercalate_go (es : List String) :
    ∀ acc : String, String.intercalate.go acc "\n" es = acc ++ sepConcat es := by
  induction es with
  | nil => intro acc; simp [String.intercalate.go, sepConcat]
  | cons e es ih =>
    intro acc
    simp only [String.intercalate.go, sepConcat, ih, String.append_assoc]

theorem sepConcat_eq (es : List String) :
    sepConcat es = (if es = [] then "" else "\n") ++ "\n".intercalate es := by
  cases es with
  | nil => rfl
  | cons e es =>
    simp only [sepConcat, String.intercalate, intercalate_go, String.append_assoc]
    simp

theorem keptEntries_cons (p : String × String) (ps : List (String × String)) :
    keptEntries (p :: ps) =
      if p.1 = cwe_noinfo ∨ p.1 = cwe_other then keptEntries ps
      else (p.1 ++ ": " ++ p.2) :: keptEntries ps := by
  simp only [keptEntries, List.filter_cons]
  by_cases h : p.1 = cwe_noinfo ∨ p.1 = cwe_other
  · have hd : decide (p.1 ≠ cwe_noinfo ∧ p.1 ≠ cwe_other) = false := by
      rw [decide_eq_false_iff_not]; tauto
    rw [if_pos h, hd]
    simp
  · have hd : decide (p.1 ≠ cwe_noinfo ∧ p.1 ≠ cwe_other) = true := by
      rw [decide_eq_true_eq]; tauto
    rw [if_neg h, hd]
    simp

theorem cweInfosLoop_tail (info : CVEInfo) (hlen : info.CWEId.length = info.CWEDesc.length) :
    ∀ (k j : Nat) (acc : String) (cnt : Nat), 0 < j → j + k = info.CWEId.length →
      cweInfosLoop info k j acc cnt
        = some (acc ++ sepConcat (keptEntries ((info.CWEId.zip info.CWEDesc).drop j))) := by
  intro k
  induction k with
  | zero =>
    intro j acc cnt _ hj
    have hz : (info.CWEId.zip info.CWEDesc).length ≤ j := by
      rw [List.length_zip]; omega
    simp [cweInfosLoop, List.drop_of_length_le hz, keptEntries, sepConcat]
  | succ k ih =>
    intro j acc cnt hpos hj
    have h1 : j < info.CWEId.length := by omega
    have h2 : j < info.CWEDesc.length := by omega
    have hz : j < (info.CWEId.zip info.CWEDesc).length := by
      rw [List.length_zip]; omega
    rw [List.drop_eq_getElem_cons hz, List.getElem_zip, keptEntries_cons]
    simp only [cweInfosLoop, List.getElem?_eq_getElem h1, List.getElem?_eq_getElem h2]
    by_cases hs : info.CWEId[j] = cwe_noinfo ∨ info.CWEId[j] = cwe_other
    · rw [if_pos hs, if_pos hs]
      exact ih (j + 1) acc cnt (by omega) (by omega)
    · rw [if_neg hs, if_neg hs, ih (j + 1) _ _ (by omega) (by omega)]
      simp only [hpos, if_true, sepConcat, String.append_assoc]

/-- What `excel_output` writes to column D of a record with aligned lists: the
joined text of the specification, after one extra line break when the first
pair is skipped and some later pair is kept. -/
theorem columnD_closed_form (info : CVEInfo)
    (hlen : info.CWEId.length = info.CWEDesc.length) :
    columnD info = some
      ((if (∃ c ∈ info.CWEId.head?, c = cwe_noinfo ∨ c = cwe_other) ∧
            keptEntries (info.CWEId.zip info.CWEDesc) ≠ [] then "\n" else "")
        ++ joinedWeaknessText (info.CWEId.zip info.CWEDesc)) := by
  obtain ⟨Id, Href, Description, ids, descs⟩ := info
  simp only at hlen ⊢
  have hj : ∀ w : List (String × String),
      joinedWeaknessText w = "\n".intercalate (keptEntries w) := fun _ => rfl
  cases ids with
  | nil => rfl
  | cons c ids =>
    cases descs with
    | nil => simp at hlen
    | cons d descs =>
      have hp : (c :: ids).zip (d :: descs) = (c, d) :: ids.zip descs := rfl
      have htail := cweInfosLoop_tail ⟨Id, Href, Description, c :: ids, d :: descs⟩ hlen
        ids.length 1
      simp only [List.length_cons, hp, List.drop_succ_cons, List.drop_zero] at htail
      have hstep : columnD ⟨Id, Href, Description, c :: ids, d :: descs⟩ =
          if c = cwe_noinfo ∨ c = cwe_other then
            cweInfosLoop ⟨Id, Href, Description, c :: ids, d :: descs⟩ ids.length 1 "" 0
          else
            cweInfosLoop ⟨Id, Href, Description, c :: ids, d :: descs⟩ ids.length 1
              ("" ++ (c ++ ": " ++ d)) 1 := by
        simp only [columnD, List.length_cons, cweInfosLoop, List.getElem?_cons_zero,
          lt_self_iff_false, if_false]
      have hk := keptEntries_cons (c, d) (ids.zip descs)
      simp only at hk
      rw [hstep, hp, hj, hk, List.head?_cons]
      by_cases hs : c = cwe_noinfo ∨ c = cwe_other
      · rw [if_pos hs, if_pos hs, htail "" 0 (by omega) (by omega), sepConcat_eq,
          String.empty_append]
        by_cases hk0 : keptEntries (ids.zip descs) = []
        · have hn : ¬ ((∃ c' ∈ some c, c' = cwe_noinfo ∨ c' = cwe_other) ∧
              keptEntries (ids.zip descs) ≠ []) := fun h => h.2 hk0
          rw [if_pos hk0, if_neg hn]
        · have hy : (∃ c' ∈ some c, c' = cwe_noinfo ∨ c' = cwe_other) ∧
              keptEntries (ids.zip descs) ≠ [] := ⟨⟨c, rfl, hs⟩, hk0⟩
          rw [if_neg hk0, if_pos hy]
      · rw [if_neg hs, if_neg hs, htail _ _ (by omega) (by omega)]
        have hn : ¬ ((∃ c' ∈ some c, c' = cwe_noinfo ∨ c' = cwe_other) ∧
            (c ++ ": " ++ d) :: keptEntries (ids.zip descs) ≠ []) := by
          rintro ⟨⟨c', hc', hs'⟩, -⟩
          have : c = c' := by simpa using hc'
          subst this
          exact hs hs'
        rw [if_neg hn]
        simp only [String.intercalate, intercalate_go, String.empty_append]

/-- The value `excel_output` returns depends on `NewSheet` alone. -/
theorem excel_output_ret (newSheetErr saveAsErr : Option String) (cve_infos : List CVEInfo)
    (r : ExcelResult) (h : excel_output newSheetErr saveAsErr cve_infos = some r) :
    r.ret = if newSheetErr.isSome then -1 else 0 := by
  unfold excel_output at h
  cases newSheetErr with
  | some e =>
    simp only [Option.some.injEq] at h
    subst h
    rfl
  | none =>
    cases hrows : rowsLoop 0 cve_infos with
    | none => simp [hrows] at h
    | some rows =>
      cases saveAsErr with
      | some e =>
        simp only [hrows, Option.some.injEq] at h
        subst h
        rfl
      | none =>
        simp only [hrows, Option.some.injEq] at h
        subst h
        rfl

/-- C4 fails on the code: the separator is written whenever `j > 0`, also when
no entry was kept before, so for the weaknesses
`[("NVD-CWE-noinfo", ""), ("CWE-79", "XSS")]` column D starts with a line
break, while the joined text of the specification is `"CWE-79: XSS"`. The
example of the specification itself comes out right. -/
theorem leading_separator_after_skipped_entry :
    columnD ⟨"CVE-1", "", "", ["NVD-CWE-noinfo", "CWE-79"], ["", "XSS"]⟩
      = some "\nCWE-79: XSS" ∧
    joinedWeaknessText [("NVD-CWE-noinfo", ""), ("CWE-79", "XSS")] = "CWE-79: XSS" ∧
    columnD ⟨"CVE-1", "", "", ["CWE-79", "NVD-CWE-noinfo"], ["XSS", ""]⟩
      = some "CWE-79: XSS" ∧
    joinedWeaknessText [("CWE-79", "XSS"), ("NVD-CWE-noinfo", "")] = "CWE-79: XSS" := by
  decide

/-- C6 fails on the code: when `NewSheet` succeeds and `SaveAs` answers an
error, `excel_output` prints the error and returns 0, the value it also
returns when the file was saved; only a `NewSheet` error makes it return -1. -/
theorem save_failure_returns_zero :
    excel_output none (some "write error") [⟨"CVE-1", "h", "d", ["CWE-79"], ["XSS"]⟩]
      = some ⟨0, [⟨1, "CVE-1", "h", "d", "CWE-79: XSS"⟩], false, ["write error"]⟩ ∧
    excel_output none none [⟨"CVE-1", "h", "d", ["CWE-79"], ["XSS"]⟩]
      = some ⟨0, [⟨1, "CVE-1", "h", "d", "CWE-79: XSS"⟩], true, []⟩ ∧
    excel_output (some "sheet error") none [⟨"CVE-1", "h", "d", ["CWE-79"], ["XSS"]⟩]
      = some ⟨-1, [], false, ["sheet error"]⟩ := by
  decide

end CveCrawler
